import Mathlib

/-!
Verification of the od-msspe primer-design core (`src/od-msspe/src/main.rs`).

Sequences are modelled as `List Char`; Rust `HashMap`s are modelled as
association lists iterated in insertion order (one admissible iteration
order of the unordered map); `usize` counters are modelled as `Nat`.
Rust `f32` arithmetic is modelled exactly where a claim depends on it
(IEEE binary32 round-to-nearest-even over `ℚ`, see `fl32`), and as exact
rational arithmetic elsewhere.
-/

set_option maxRecDepth 4000

/- `Rat` arithmetic is `@[irreducible]` in Batteries; restore the default
transparency so that concrete rational computations can be settled by
kernel reduction (`decide`). -/
set_option allowUnsafeReducibility true
attribute [local semireducible] Rat.add Rat.mul Rat.sub Rat.inv Rat.ofScientific

/-! ## Configuration constants (main.rs lines 11-15) -/

def KMER_SIZE : Nat := 13
def OVLP_WINDOWS_SIZE : Nat := 250
def MAX_MISMATCH_SEGMENTS : Nat := 0
def MAX_ITERATIONS : Nat := 100
def SEARCH_WINDOWS_SIZE : Nat := 50

def SEQ_DIR_FWD : Nat := 0x00
def SEQ_DIR_REV : Nat := 0x01

/-! ## Data model (main.rs lines 23-89) -/

structure SequenceRecord where
  name : List Char
  sequence : List Char
deriving DecidableEq

structure KmerRecord where
  word : List Char
  direction : Nat
deriving DecidableEq

structure KmerFrequency where
  kmer : KmerRecord
  frequency : Nat
deriving DecidableEq

/-- A `Segment` of the alignment: its partition index (stored as `u16` in the
source, hence the `% 2 ^ 16` at creation) and its per-(word, strand) count map. -/
structure Segment where
  index : Nat
  kmers : List (KmerRecord × Nat)
deriving DecidableEq

/-! ## Association-list model of `HashMap` operations -/

/-- Lookup in an association list (model of `HashMap::get`). -/
def alookup [DecidableEq κ] (key : κ) : List (κ × δ) → Option δ
  | [] => none
  | (k, v) :: rest => if k = key then some v else alookup key rest

/-- `entry(key).and_modify(|e| *e += n).or_insert(n)` on a counting map. -/
def alistAdd [DecidableEq κ] (m : List (κ × Nat)) (key : κ) (n : Nat) : List (κ × Nat) :=
  match m with
  | [] => [(key, n)]
  | (k, v) :: rest => if k = key then (k, v + n) :: rest else (k, v) :: alistAdd rest key n

/-- `entry(key).or_insert(v)`: keep the first binding of a key. -/
def alistOrInsert [DecidableEq κ] (m : List (κ × δ)) (key : κ) (v : δ) : List (κ × δ) :=
  match m with
  | [] => [(key, v)]
  | (k, w) :: rest => if k = key then (k, w) :: rest else (k, w) :: alistOrInsert rest key v

/-- `insert(key, v)`: add or replace the binding of a key. -/
def alistSet [DecidableEq κ] (m : List (κ × δ)) (key : κ) (v : δ) : List (κ × δ) :=
  match m with
  | [] => [(key, v)]
  | (k, w) :: rest => if k = key then (k, v) :: rest else (k, w) :: alistSet rest key v

/-- Count stored for a key, reading an absent key as 0. -/
def countOf [DecidableEq κ] (m : List (κ × Nat)) (key : κ) : Nat :=
  (alookup key m).getD 0

/-! ## reverse_complement (main.rs lines 119-132) -/

def complementChar (c : Char) : Char :=
  match c with
  | 'A' => 'T'
  | 'T' => 'A'
  | 'U' => 'A'
  | 'C' => 'G'
  | 'G' => 'C'
  | _ => c

/-- `sequence.chars().rev().map(complement).collect()` -/
def reverse_complement (sequence : List Char) : List Char :=
  sequence.reverse.map complementChar

/-! ## k-mer extraction (main.rs lines 134-142) -/

/-- All contiguous windows of length `n`, stride 1 (the `ngrams(n)` /
slice `windows(n)` iterator). -/
def windowsList (n : Nat) (l : List α) : List (List α) :=
  (List.range (l.length + 1 - n)).map (fun i => (l.drop i).take n)

/-- Characters excluded from k-mers: the Rust filter `!"Nn- ".contains(*c)`. -/
def excludedChars : List Char := ['N', 'n', '-', ' ']

/-- `Itertools::unique`: deduplicate keeping the first occurrence. -/
def uniqueAux [DecidableEq α] (seen : List α) : List α → List α
  | [] => []
  | x :: xs => if x ∈ seen then uniqueAux seen xs else x :: uniqueAux (x :: seen) xs

def uniqueList [DecidableEq α] (l : List α) : List α := uniqueAux [] l

def find_kmers (sequence : List Char) (kmer_size : Nat) : List (List Char) :=
  uniqueList ((windowsList kmer_size sequence).filter
    (fun kmer => kmer.all (fun c => !(excludedChars.contains c))))

/-! ## Partitioning (main.rs lines 144-158) -/

/-- `Iterator::step_by(w)`: every `w`-th element, starting with the first. -/
def stepBy (w : Nat) (l : List α) : List α :=
  (l.enum.filter (fun p => p.1 % w == 0)).map Prod.snd

def partitioning_sequence (sequence : List Char) (ovlp_windows_size : Nat) : List (List Char) :=
  stepBy ovlp_windows_size (windowsList (ovlp_windows_size * 2) sequence)

def get_sequence_on_search_windows (sequence : List Char) (search_windows_size : Nat) :
    List Char × List Char :=
  (sequence.take search_windows_size, sequence.drop (sequence.length - search_windows_size))

/-! ## Segment construction (main.rs lines 160-213) -/

/-- The deduplicated (word, strand) candidates one partition contributes:
forward k-mers of the first search window, then reverse k-mers of the
reverse-complemented last search window (main.rs lines 179-193). -/
def partitionKmers (partition : List Char) (kmer_size search_windows_size : Nat) :
    List KmerRecord :=
  let ws := get_sequence_on_search_windows partition search_windows_size
  (find_kmers ws.1 kmer_size).map (fun w => KmerRecord.mk w SEQ_DIR_FWD) ++
    (find_kmers (reverse_complement ws.2) kmer_size).map (fun w => KmerRecord.mk w SEQ_DIR_REV)

/-- `segments.entry(idx).or_insert(Segment { index: idx as u16, .. })`
followed by a mutation of the found/created segment. -/
def segUpdate (segs : List (Nat × Segment)) (idx : Nat) (f : Segment → Segment) :
    List (Nat × Segment) :=
  match segs with
  | [] => [(idx, f (Segment.mk (idx % 2 ^ 16) []))]
  | (i, s) :: rest => if i = idx then (i, f s) :: rest else (i, s) :: segUpdate rest idx f

/-- Push one partition's k-mers into its segment's count map
(main.rs lines 172-209: each k-mer bumps its identity-equality count by 1). -/
def processPartition (kmer_size search_windows_size : Nat) (segs : List (Nat × Segment))
    (ip : Nat × List Char) : List (Nat × Segment) :=
  segUpdate segs ip.1 (fun seg =>
    let newKmers := (partitionKmers ip.2 kmer_size search_windows_size).foldl
      (fun m kr => alistAdd m kr 1) seg.kmers
    { seg with kmers := newKmers })

/-- `get_segments`; `none` models the configuration panic at main.rs line 164. -/
def get_segments (records : List SequenceRecord) (ovlp_windows_size kmer_size
    search_windows_size : Nat) : Option (List (Nat × Segment)) :=
  if ovlp_windows_size < search_windows_size then none
  else some (records.foldl (fun segs rec =>
    (partitioning_sequence rec.sequence ovlp_windows_size).enum.foldl
      (processPartition kmer_size search_windows_size) segs) [])


/-! ## Inverted index (main.rs lines 215-231) -/

/-- `make_kmer_segments_mapping`: word (strand dropped) to
(segment index to aggregated frequency). -/
def make_kmer_segments_mapping (segments : List (Nat × Segment)) :
    List (List Char × List (Nat × Nat)) :=
  segments.foldl (fun m entry =>
    entry.2.kmers.foldl (fun m kf =>
      match alookup kf.1.word m with
      | some inner => alistSet m kf.1.word (alistSet inner entry.1 kf.2)
      | none => m ++ [(kf.1.word, [(entry.1, kf.2)])]) m) []

/-! ## find_most_freq_kmer (main.rs lines 233-311) -/

/-- Result of `find_most_freq_kmer`: `panic` models a Rust panic
(an `unwrap` failing), the other two model `None` / `Some`. -/
inductive FindResult where
  | panic : FindResult
  | noCandidates : FindResult
  | found : KmerFrequency → List Nat → FindResult
deriving DecidableEq

/-- One pass over a segment's count map building `kmer_map` (first record per
word), `kmer_counts` (word totals within the segment) and updating the global
`kmer_total_counts` (main.rs lines 245-254). -/
def scanSegmentKmers (totals : List (KmerRecord × Nat)) (kmers : List (KmerRecord × Nat)) :
    List (List Char × KmerRecord) × List (List Char × Nat) × List (KmerRecord × Nat) :=
  kmers.foldl (fun acc kc =>
    (alistOrInsert acc.1 kc.1.word kc.1,
     alistAdd acc.2.1 kc.1.word kc.2,
     alistAdd acc.2.2 kc.1 kc.2)) (([], [], totals))

/-- `Iterator::max_by` comparing on the `Nat` component: the last maximal
element wins ties, matching the documented Rust semantics. -/
def maxBySnd (l : List (α × Nat)) : Option (α × Nat) :=
  l.foldl (fun acc x =>
    match acc with
    | none => some x
    | some a => if x.2 < a.2 then some a else some x) none

/-- Per-segment body of the first loop of `find_most_freq_kmer`
(main.rs lines 240-267); `none` models the panic of
`kmer_counts.into_iter().max_by(..).unwrap()` on an empty count map. -/
def stepSegment (skipped : List Nat)
    (acc : Option (List (KmerRecord × Nat) × List (Nat × KmerFrequency)))
    (entry : Nat × Segment) :
    Option (List (KmerRecord × Nat) × List (Nat × KmerFrequency)) :=
  match acc with
  | none => none
  | some (totals, cands) =>
    if entry.2.index ∈ skipped then some (totals, cands)
    else
      let scanned := scanSegmentKmers totals entry.2.kmers
      match maxBySnd scanned.2.1 with
      | none => none
      | some wf =>
        match alookup wf.1 scanned.1 with
        | none => none
        | some wkr =>
          some (scanned.2.2,
            alistSet cands (entry.2.index)
              (KmerFrequency.mk (KmerRecord.mk wf.1 wkr.direction) wf.2))

/-- `candidate_kmers.iter().max_by(..)` on identity-equality totals
(main.rs lines 273-280); the key of an entry is always present in `totals`,
so the absent case is read as total 0. -/
def maxByTotal (totals : List (KmerRecord × Nat)) (cands : List (Nat × KmerFrequency)) :
    Option KmerFrequency :=
  (cands.map Prod.snd).foldl (fun acc kf =>
    match acc with
    | none => some kf
    | some a => if countOf totals kf.kmer < countOf totals a.kmer then some a else some kf) none

def find_most_freq_kmer (segments : List (Nat × Segment))
    (kmer_segments_mapping : List (List Char × List (Nat × Nat)))
    (skipped_segment_indexes : List Nat) : FindResult :=
  match segments.foldl (stepSegment skipped_segment_indexes) (some ([], [])) with
  | none => .panic
  | some (totals, cands) =>
    if cands.length = 0 then .noCandidates
    else
      match maxByTotal totals cands with
      | none => .panic
      | some winner =>
        match alookup winner.kmer.word kmer_segments_mapping with
        | none => .panic
        | some segMap =>
          let matched := segMap.map Prod.fst
          let skippedNew :=
            match alookup (reverse_complement winner.kmer.word) kmer_segments_mapping with
            | none => matched
            | some revMap => matched ++ ((revMap.map Prod.fst).filter (fun i => !(matched.contains i)))
          .found (KmerFrequency.mk (KmerRecord.mk winner.kmer.word winner.kmer.direction)
            winner.frequency) skippedNew

/-! ## get_candidates_kmers (main.rs lines 493-530) -/

/-- `HashSet::insert` on a duplicate-free list model of a set. -/
def setInsert (l : List Nat) (x : Nat) : List Nat :=
  if x ∈ l then l else l ++ [x]

/-- The greedy selection loop of `get_candidates_kmers` (main.rs lines
500-521), parameterised by the iteration budget (`MAX_ITERATIONS`) and the
mismatch tolerance (`MAX_MISMATCH_SEGMENTS`); `none` models a panic
propagating out of `find_most_freq_kmer`. -/
def gckLoop (maxMismatch : Nat) (segments : List (Nat × Segment))
    (ksm : List (List Char × List (Nat × Nat))) (total : Nat) :
    Nat → List Nat → List KmerFrequency → Option (List KmerFrequency)
  | 0, _, acc => some acc
  | fuel + 1, skipped, acc =>
    match find_most_freq_kmer segments ksm skipped with
    | .panic => none
    | .noCandidates => some acc
    | .found iterWinner newSkipped =>
      let skipped2 := newSkipped.foldl setInsert skipped
      if total - skipped2.length < maxMismatch then some acc
      else gckLoop maxMismatch segments ksm total fuel skipped2 (acc ++ [iterWinner])

def get_candidates_kmers (maxIterations maxMismatch : Nat)
    (segments : List (Nat × Segment)) : Option (List KmerFrequency) :=
  let ksm := make_kmer_segments_mapping segments
  (gckLoop maxMismatch segments ksm segments.length maxIterations [] []).map
    (List.map (fun k => KmerFrequency.mk (KmerRecord.mk k.kmer.word k.kmer.direction) k.frequency))

/-- `get_candidates_kmers` at the configured constants. -/
def get_candidates_kmers_run (segments : List (Nat × Segment)) : Option (List KmerFrequency) :=
  get_candidates_kmers MAX_ITERATIONS MAX_MISMATCH_SEGMENTS segments

/-! ## Exact model of IEEE binary32 rounding

The QC filters compare `f32` values; where a claim hinges on rounding we
model `f32` arithmetic exactly: every Rust `f32` operation on values in the
binary32 normal range computes the exact rational result and rounds it with
`fl32` (round to nearest, ties to even, 24-bit significand). -/

def pow2 (e : ℤ) : ℚ := (2 : ℚ) ^ e

/-- The exponent `e` with `2 ^ (e + 23) ≤ q < 2 ^ (e + 24)`, searched over the
binary32 normal range (so `q = significand * 2 ^ e` with a 24-bit significand). -/
def f32exp (q : ℚ) : ℤ :=
  (((List.range 254).map (fun i => (i : ℤ) - 149)).find?
    (fun e => decide (pow2 (e + 23) ≤ q) && decide (q < pow2 (e + 24)))).getD 0

/-- Round a rational to an integer, nearest, ties to even. -/
def rnInt (m : ℚ) : ℤ :=
  let f := ⌊m⌋
  let r := m - (f : ℚ)
  if r < 1 / 2 then f
  else if 1 / 2 < r then f + 1
  else if f % 2 = 0 then f else f + 1

/-- Round a rational to the nearest `f32` (normal range; ties to even). -/
def fl32 (q : ℚ) : ℚ :=
  if q = 0 then 0
  else if 0 < q then rnInt (q / pow2 (f32exp q)) * pow2 (f32exp q)
  else -(rnInt (-q / pow2 (f32exp (-q))) * pow2 (f32exp (-q)))

/-! ## QC statistics (main.rs lines 532-634) -/

def gcCount (kmer : List Char) : Nat :=
  kmer.countP (fun c => c == 'G' || c == 'C')

def atCount (kmer : List Char) : Nat :=
  kmer.countP (fun c => c == 'A' || c == 'T')

/-- `get_gc_percent` (main.rs lines 559-567) with its two `f32` roundings:
the division `gc_count / len` and the multiplication by 100
(the counts and the length are exactly representable). -/
def get_gc_percent (kmer : List Char) : ℚ :=
  fl32 (fl32 ((gcCount kmer : ℚ) / (kmer.length : ℚ)) * 100)

/-- `get_tm` (main.rs lines 569-581), read as exact arithmetic:
`64.9 + 41 * (gc - 16.4) / (gc + at)` (in `ℚ`, division by zero is 0,
a case no ACGT k-mer reaches). -/
def get_tm (kmer : List Char) : ℚ :=
  64.9 + 41 * ((gcCount kmer : ℚ) - 16.4) / ((gcCount kmer : ℚ) + (atCount kmer : ℚ))

def tm_mean (primers : List (List Char)) : ℚ :=
  (primers.map get_tm).sum / (primers.length : ℚ)

/-- Population variance of the primer melting temperatures (the external
`std_dev::standard_deviation` is its square root, per the spec). -/
def tm_variance (primers : List (List Char)) : ℚ :=
  ((primers.map get_tm).map (fun x => (x - tm_mean primers) ^ 2)).sum / (primers.length : ℚ)

/-- `t` is the adaptive threshold `mean + 2 * sd` of `get_tm_threshold`
(main.rs lines 588-596): `sd` is the nonnegative square root of the
population variance, so `t - mean` is nonnegative with square `4 * variance`. -/
def IsTmThreshold (primers : List (List Char)) (t : ℚ) : Prop :=
  tm_mean primers ≤ t ∧ (t - tm_mean primers) ^ 2 = 4 * tm_variance primers

/-- `in_tm_threshold` (main.rs lines 598-600). -/
def in_tm_threshold (kmer : List Char) (threshold : ℚ) : Bool :=
  decide (get_tm kmer < threshold)

/-- `is_repeats` (main.rs lines 607-620): fold over the overlapping
2-character chunks, counting consecutive equalities, resetting on change;
only the final counter value is compared with 5. -/
def isRepeatsAux : List (List Char) → Nat → List Char → Nat
  | [], repeats, _ => repeats
  | chunk :: rest, repeats, lastChunk =>
    if chunk = lastChunk then isRepeatsAux rest (repeats + 1) chunk
    else isRepeatsAux rest 0 chunk

def is_repeats (kmer : List Char) : Bool :=
  decide (5 ≤ isRepeatsAux (windowsList 2 kmer) 0 [])

/-- `is_run` (main.rs lines 622-634): same pattern over single characters,
with the initial `last_char` being a space. -/
def isRunAux : List Char → Nat → Char → Nat
  | [], runs, _ => runs
  | c :: rest, runs, lastChar =>
    if c = lastChar then isRunAux rest (runs + 1) c
    else isRunAux rest 0 c

def is_run (kmer : List Char) : Bool :=
  decide (5 ≤ isRunAux kmer 0 ' ')

/-! ## Stats and final filter (main.rs lines 532-557 and 670-679) -/

structure KmerStat where
  word : List Char
  direction : Nat
  frequency : Nat
  gc_percent : ℚ
  tm : ℚ
  tm_ok : Bool
  repeats : Bool
  runs : Bool
  delta_g : ℚ
  hairpin : Bool
deriving DecidableEq

/-- `get_kmer_stats` (main.rs lines 532-557), taking the Tm threshold as an
argument (the source computes it by `get_tm_threshold`, whose square-root
output is characterised by `IsTmThreshold`); `delta_g` is the source's
constant stub 0.0. -/
def get_kmer_stats (kmer_records : List KmerFrequency) (tm_threshold : ℚ) : List KmerStat :=
  kmer_records.map (fun kmer_freq =>
    { word := kmer_freq.kmer.word
      direction := kmer_freq.kmer.direction
      frequency := kmer_freq.frequency
      gc_percent := get_gc_percent kmer_freq.kmer.word
      tm := get_tm kmer_freq.kmer.word
      tm_ok := in_tm_threshold kmer_freq.kmer.word tm_threshold
      repeats := is_repeats kmer_freq.kmer.word
      runs := is_run kmer_freq.kmer.word
      delta_g := 0
      hairpin := decide ((0 : ℚ) < -9) })

/-- The final acceptance filter of `main` (main.rs lines 670-679). -/
def filter_candidate_primers (kmer_stats : List KmerStat) : List KmerStat :=
  kmer_stats.filter (fun s =>
    s.tm_ok && !s.repeats && !s.runs &&
      decide ((40 : ℚ) ≤ s.gc_percent) && decide (s.gc_percent ≤ (60 : ℚ)))



/-! ## Spec-side reference predicates

These two definitions follow the spec's words (section 4.6), not the source;
they exist only to be compared with the source-derived `is_repeats` / `is_run`. -/

/-- Spec wording: "a motif of length 2 repeating at least 5 times contiguously"
somewhere in the string. -/
def specDinucleotideRepeat (s : List Char) : Bool :=
  (List.range s.length).any (fun i =>
    match s.drop i with
    | a :: b :: _ => List.isPrefixOf (List.flatten (List.replicate 5 [a, b])) (s.drop i)
    | _ => false)

/-- Spec wording: "any single character repeats 5 or more times consecutively"
somewhere in the string. -/
def specHomopolymerRun (s : List Char) : Bool :=
  (List.range s.length).any (fun i =>
    match s.drop i with
    | c :: _ => List.isPrefixOf (List.replicate 5 c) (s.drop i)
    | [] => false)

/-! ## Derived notions used by the theorems -/

/-- The length of the final streak of consecutive equal characters counted by
`isRunAux` when the initial state cannot interfere. -/
def pureTrail : List Char → Nat
  | [] => 0
  | c :: rest => if rest.all (fun d => d == c) then rest.length else pureTrail rest

/-- The (word, strand) candidates a sequence contributes at partition `idx`
(empty when the sequence has no partition `idx`). -/
def partitionKmersAt (seq : List Char) (ovlp_windows_size kmer_size search_windows_size
    idx : Nat) : List KmerRecord :=
  match (partitioning_sequence seq ovlp_windows_size).get? idx with
  | some p => partitionKmers p kmer_size search_windows_size
  | none => []

/-- The count map of segment `idx` (empty when the segment does not exist). -/
def segMapAt (segs : List (Nat × Segment)) (idx : Nat) : List (KmerRecord × Nat) :=
  match alookup idx segs with
  | some seg => seg.kmers
  | none => []

/-- The count segment `idx` stores for `kr`, reading absence as 0. -/
def segCnt (segs : List (Nat × Segment)) (idx : Nat) (kr : KmerRecord) : Nat :=
  countOf (segMapAt segs idx) kr

/-! ## Concrete fixtures -/

/-- One segment holding a single forward 3-mer with count 1. -/
def c1Segs : List (Nat × Segment) :=
  [(0, Segment.mk 0 [(KmerRecord.mk ['A','A','A'] SEQ_DIR_FWD, 1)])]

/-- A record that is all gaps: every search window of every partition consists
of excluded characters only, so all segment count maps stay empty. -/
def gapRecords : List SequenceRecord :=
  [SequenceRecord.mk ['s'] (List.replicate 20 '-')]

def gapSegs : List (Nat × Segment) := (get_segments gapRecords 5 3 5).getD []

/-- Two selected candidates with distinct melting temperatures; the first has
exactly 60 percent G/C content. -/
def qcKmers : List KmerFrequency :=
  [KmerFrequency.mk (KmerRecord.mk ['G','G','G','A','A'] SEQ_DIR_FWD) 1,
   KmerFrequency.mk (KmerRecord.mk ['A','A','T','T','A'] SEQ_DIR_FWD) 1]

/-- The adaptive threshold `mean + 2 * sd` of the `qcKmers` Tm values:
mean is -57.28, the population sd is 12.3, so the threshold is -32.68. -/
def qcT : ℚ := -817 / 25

def qcStats : List KmerStat := get_kmer_stats qcKmers qcT

/-- The `KmerStat` row of the 60-percent-GC candidate. -/
def qcStatG : KmerStat :=
  qcStats.getD 0 (KmerStat.mk [] 0 0 0 0 false false false 0 false)

/-- The three aligned records of the repository's own `test_get_segments`. -/
def c7Records : List SequenceRecord :=
  [SequenceRecord.mk ['s','1'] ['A','A','C','C','T','T','G','G','A','A','C','C','T','T','G','G'],
   SequenceRecord.mk ['s','2'] ['A','A','C','C','T','T','G','G','A','A','C','C','T','T','G','-'],
   SequenceRecord.mk ['s','3'] ['-','A','C','C','T','T','G','G','A','A','C','C','T','T','-','G']]

def c7Segs : List (Nat × Segment) := (get_segments c7Records 5 3 5).getD []

def c7Seg0 : Segment := (alookup 0 c7Segs).getD (Segment.mk 0 [])

/-! # Theorems -/

/-! ## Claim C6: reverse_complement -/

lemma complementChar_involutive_on_acgt (c : Char)
    (h : c = 'A' ∨ c = 'T' ∨ c = 'C' ∨ c = 'G') :
    complementChar (complementChar c) = c := by
  rcases h with h | h | h | h <;> subst h <;> rfl

lemma reverse_complement_reverse_complement (s : List Char)
    (h : ∀ c ∈ s, c = 'A' ∨ c = 'T' ∨ c = 'C' ∨ c = 'G') :
    reverse_complement (reverse_complement s) = s := by
  unfold reverse_complement
  rw [← List.map_reverse, List.reverse_reverse, List.map_map]
  induction s with
  | nil => rfl
  | cons a t ih =>
    have ha := complementChar_involutive_on_acgt a (h a (by simp))
    simp only [List.map_cons, Function.comp_apply, ha, List.cons.injEq, true_and]
    exact ih (fun c hc => h c (by simp [hc]))

/-- Claim C6, counterexample: the code maps the character U to A (main.rs
line 126), so U is not passed through unchanged even though it is outside
the alphabet set named by the claim. -/
theorem C6_counterexample : reverse_complement ['U'] ≠ ['U'] := by decide

/-- Claim C6, amended: `reverse_complement` is an involution on sequences over
the alphabet A, T, C, G, and every character outside A, T, C, G, U is passed
through unchanged (only reversed in position), while U is mapped to A; in
particular `reverse_complement "ATCGAA" = "TTCGAT"`. -/
theorem C6_amended :
    (∀ s : List Char, (∀ c ∈ s, c = 'A' ∨ c = 'T' ∨ c = 'C' ∨ c = 'G') →
      reverse_complement (reverse_complement s) = s) ∧
    (∀ s : List Char, (∀ c ∈ s, c ∉ (['A', 'T', 'C', 'G', 'U'] : List Char)) →
      reverse_complement s = s.reverse) ∧
    reverse_complement ['U'] = ['A'] ∧
    reverse_complement ['A','T','C','G','A','A'] = ['T','T','C','G','A','T'] := by
  refine ⟨reverse_complement_reverse_complement, ?_, by decide, by decide⟩
  intro s h
  unfold reverse_complement
  have : ∀ c ∈ s.reverse, complementChar c = c := by
    intro c hc
    have hm := h c (List.mem_reverse.mp hc)
    simp only [List.mem_cons, List.not_mem_nil, or_false, not_or] at hm
    obtain ⟨h1, h2, h3, h4, h5⟩ := hm
    unfold complementChar
    split <;> simp_all
  exact List.map_congr_left this |>.trans (List.map_id _)

theorem C6_amended_witness :
    reverse_complement (reverse_complement ['A','C','G','T']) = ['A','C','G','T'] ∧
    reverse_complement ['X','Y'] = List.reverse ['X','Y'] :=
  ⟨C6_amended.1 ['A','C','G','T'] (by decide), C6_amended.2.1 ['X','Y'] (by decide)⟩

/-! ## Claim C9: configuration error in get_segments -/

/-- Claim C9: when the partition width is strictly smaller than the
search-window width, `get_segments` fails before building anything (the
model returns `none`, standing for the panic at main.rs line 164); otherwise
this error path is not taken and a segments map is produced. -/
theorem C9_thm (records : List SequenceRecord) (ovlp_windows_size kmer_size
    search_windows_size : Nat) :
    (ovlp_windows_size < search_windows_size →
      get_segments records ovlp_windows_size kmer_size search_windows_size = none) ∧
    (search_windows_size ≤ ovlp_windows_size →
      ∃ segs, get_segments records ovlp_windows_size kmer_size search_windows_size = some segs) := by
  constructor
  · intro h
    simp [get_segments, h]
  · intro h
    unfold get_segments
    rw [if_neg (Nat.not_lt.mpr h)]
    exact ⟨_, rfl⟩

theorem C9_witness :
    (get_segments [] 3 13 5 = none) ∧ (∃ segs, get_segments [] 5 13 5 = some segs) :=
  ⟨(C9_thm [] 3 13 5).1 (by decide), (C9_thm [] 5 13 5).2 (by decide)⟩

/-! ## Claim C10: panic of find_most_freq_kmer on an empty segment count map -/

/-- Claim C10: an all-gap input yields segments whose count maps are empty;
on such a segments map (with nothing skipped) `find_most_freq_kmer` panics,
modelling the `.max_by(..).unwrap()` of main.rs line 255 on an empty
per-segment count map. -/
theorem C10_thm :
    get_segments gapRecords 5 3 5 = some gapSegs ∧
    gapSegs ≠ [] ∧
    alookup 0 gapSegs = some (Segment.mk 0 []) ∧
    find_most_freq_kmer gapSegs (make_kmer_segments_mapping gapSegs) [] = FindResult.panic := by
  decide

/-! ## Claim C2: the dinucleotide-repeat detector -/

/-- Claim C2: on the example of the function's own documentation comment
(main.rs lines 602-606), "ATATATATATGG" contains the motif AT repeated five
times contiguously — the spec-side predicate holds — yet `is_repeats`
returns `false`: its counter resets whenever two consecutive overlapping
2-chunks differ (which happens at every step of an alternating motif), and
only the final counter value is compared with 5. -/
theorem C2_code_eval :
    specDinucleotideRepeat ['A','T','A','T','A','T','A','T','A','T','G','G'] = true ∧
    is_repeats ['A','T','A','T','A','T','A','T','A','T','G','G'] = false := by
  decide

/-! ## Claim C3: the homopolymer-run detector -/

lemma isRunAux_all_eq (s : List Char) :
    ∀ (r : Nat) (lc : Char), s.all (fun d => d == lc) = true → isRunAux s r lc = r + s.length := by
  induction s with
  | nil => intro r lc _; simp [isRunAux]
  | cons a t ih =>
    intro r lc h
    simp only [List.all_cons, Bool.and_eq_true, beq_iff_eq] at h
    obtain ⟨rfl, ht⟩ := h
    rw [isRunAux, if_pos rfl, ih (r + 1) a (by simpa using ht)]
    simp only [List.length_cons]
    omega

lemma isRunAux_not_all (s : List Char) :
    ∀ (r : Nat) (lc : Char), s.all (fun d => d == lc) = false → isRunAux s r lc = pureTrail s := by
  induction s with
  | nil => intro r lc h; simp [List.all_nil] at h
  | cons a t ih =>
    intro r lc h
    simp only [List.all_cons, Bool.and_eq_true, beq_iff_eq, Bool.and_eq_false_iff] at h
    by_cases hta : t.all (fun d => d == a) = true
    · have hne : a ≠ lc := by
        rcases h with h | h
        · exact fun he => by simp [he] at h
        · intro he
          subst he
          rw [hta] at h
          simp at h
      rw [isRunAux, if_neg hne, isRunAux_all_eq t 0 a hta, pureTrail, if_pos hta]
      omega
    · have hta' : t.all (fun d => d == a) = false := by
        simpa using hta
      rw [pureTrail, if_neg (by simp [hta'])]
      by_cases hal : a = lc
      · subst hal
        rw [isRunAux, if_pos rfl]
        exact ih (r + 1) a hta'
      · rw [isRunAux, if_neg hal]
        exact ih 0 a hta'

lemma replicate_suffix_of_all_eq {t : List Char} {a : Char}
    (ht : t.all (fun d => d == a) = true) (h5 : 5 ≤ t.length) :
    List.replicate 6 a <:+ a :: t := by
  have : a :: t = List.replicate (t.length + 1) a := by
    rw [List.eq_replicate_iff]
    constructor
    · simp
    · intro b hb
      rcases List.mem_cons.mp hb with rfl | hb
      · rfl
      · have := List.all_eq_true.mp ht b hb
        simpa using this
  rw [this]
  refine ⟨List.replicate (t.length + 1 - 6) a, ?_⟩
  rw [← List.replicate_add]
  congr 1
  omega

lemma pureTrail_ge_iff (s : List Char) :
    5 ≤ pureTrail s ↔ ∃ c, List.replicate 6 c <:+ s := by
  induction s with
  | nil =>
    simp only [pureTrail]
    constructor
    · omega
    · rintro ⟨c, hc⟩
      have := List.suffix_nil.mp hc
      simp [List.replicate] at this
  | cons a t ih =>
    by_cases hta : t.all (fun d => d == a) = true
    · rw [pureTrail, if_pos hta]
      constructor
      · intro h5
        exact ⟨a, replicate_suffix_of_all_eq hta h5⟩
      · rintro ⟨c, hc⟩
        have := hc.length_le
        simp at this
        omega
    · rw [pureTrail, if_neg hta, ih]
      constructor
      · rintro ⟨c, hc⟩
        exact ⟨c, hc.trans (List.suffix_cons a t)⟩
      · rintro ⟨c, hc⟩
        rcases List.suffix_cons_iff.mp hc with he | hs
        · exfalso
          have h6 : List.replicate 6 c = c :: List.replicate 5 c := rfl
          rw [h6] at he
          injection he with h1 h2
          subst h1
          apply hta
          rw [← h2]
          simp [List.all_eq_true]
        · exact ⟨c, hs⟩

/-- Claim C3, counterexample: "AAAAA" has a single character repeated exactly
5 times consecutively (the spec-side predicate holds), yet `is_run` returns
`false`: the counter counts equal-to-previous steps (4 for a 5-run) and only
its final value is compared with 5. -/
theorem C3_counterexample :
    specHomopolymerRun ['A','A','A','A','A'] = true ∧
    is_run ['A','A','A','A','A'] = false := by
  decide

/-- Claim C3, amended: for any word not containing a space (the initial
`last_char` of the loop), `is_run` is true exactly when the word ends in at
least 6 copies of a single character; a run of 5, or a run anywhere other
than at the end of the word, is not flagged. -/
theorem C3_amended (s : List Char) (h : ' ' ∉ s) :
    is_run s = true ↔ ∃ c, List.replicate 6 c <:+ s := by
  cases s with
  | nil =>
    simp only [is_run, isRunAux, decide_eq_true_eq]
    constructor
    · omega
    · rintro ⟨c, hc⟩
      have := List.suffix_nil.mp hc
      simp [List.replicate] at this
  | cons a t =>
    have hna : a ≠ ' ' := fun he => h (he ▸ List.mem_cons_self a t)
    have hall : (a :: t).all (fun d => d == ' ') = false := by
      simp [List.all_cons, hna]
    rw [is_run, decide_eq_true_eq, isRunAux_not_all _ 0 ' ' hall]
    exact pureTrail_ge_iff (a :: t)

theorem C3_amended_witness :
    (' ' ∉ (['G','A','A','A','A','A','A'] : List Char)) ∧
    (is_run ['G','A','A','A','A','A','A'] = true ↔
      ∃ c, List.replicate 6 c <:+ (['G','A','A','A','A','A','A'] : List Char)) :=
  ⟨by decide, C3_amended ['G','A','A','A','A','A','A'] (by decide)⟩

/-! ## Claim C8: partitioning_sequence -/

lemma snd_mem_of_mem_enumFrom {α : Type} : ∀ {l : List α} {n : Nat} {p : Nat × α},
    p ∈ List.enumFrom n l → p.2 ∈ l := by
  intro l
  induction l with
  | nil => intro n p h; simp [List.enumFrom] at h
  | cons a t ih =>
    intro n p h
    rw [List.enumFrom] at h
    rcases List.mem_cons.mp h with rfl | h
    · simp
    · exact List.mem_cons_of_mem _ (ih h)

lemma succ_ceil_div (n w : Nat) (hw : 0 < w) :
    (n + 1 + w - 1) / w = (n + w - 1) / w + if n % w = 0 then 1 else 0 := by
  have h1 : n + 1 + w - 1 = (n + w - 1) + 1 := by omega
  rw [h1, Nat.succ_div]
  congr 1
  have h2 : n + w - 1 + 1 = n + w := by omega
  rw [h2]
  have h3 : w ∣ n + w ↔ n % w = 0 := by
    rw [Nat.dvd_add_self_right]
    exact Nat.dvd_iff_mod_eq_zero
  by_cases hd : n % w = 0
  · rw [if_pos (h3.mpr hd), if_pos hd]
  · rw [if_neg (fun hc => hd (h3.mp hc)), if_neg hd]

lemma countP_enumFrom_mod {α : Type} (w : Nat) (hw : 0 < w) :
    ∀ (l : List α) (n : Nat),
      List.countP (fun p => p.1 % w == 0) (List.enumFrom n l) =
        (n + l.length + w - 1) / w - (n + w - 1) / w := by
  intro l
  induction l with
  | nil => intro n; simp [List.enumFrom]
  | cons a t ih =>
    intro n
    rw [List.enumFrom, List.countP_cons, ih (n + 1)]
    have hB : (n + 1 + w - 1) / w = (n + w - 1) / w + if n % w = 0 then 1 else 0 :=
      succ_ceil_div n w hw
    have hC : (n + 1 + w - 1) ≤ n + 1 + t.length + w - 1 := by omega
    have hCB := Nat.div_le_div_right (c := w) hC
    have heq : n + (t.length + 1) + w - 1 = n + 1 + t.length + w - 1 := by omega
    simp only [List.length_cons, heq]
    by_cases hd : n % w = 0
    · rw [if_pos hd] at hB
      have hi : (((n, a).1 % w == 0) = true) := by simpa using hd
      rw [if_pos hi]
      omega
    · rw [if_neg hd] at hB
      have hi : ¬(((n, a).1 % w == 0) = true) := by simpa using hd
      rw [if_neg hi]
      omega

lemma stepBy_length {α : Type} (w : Nat) (hw : 0 < w) (l : List α) :
    (stepBy w l).length = (l.length + w - 1) / w := by
  unfold stepBy
  rw [List.length_map, ← List.countP_eq_length_filter]
  have h0 : l.enum = List.enumFrom 0 l := rfl
  rw [h0, countP_enumFrom_mod w hw l 0]
  have h1 : (0 + w - 1) / w = 0 := Nat.div_eq_of_lt (by omega)
  rw [Nat.zero_add, h1, Nat.sub_zero]

lemma mem_of_mem_stepBy {α : Type} {w : Nat} {l : List α} {x : α}
    (hx : x ∈ stepBy w l) : x ∈ l := by
  unfold stepBy at hx
  obtain ⟨p, hp, rfl⟩ := List.mem_map.mp hx
  exact snd_mem_of_mem_enumFrom (List.mem_filter.mp hp).1

lemma windowsList_length {α : Type} (n : Nat) (l : List α) :
    (windowsList n l).length = l.length + 1 - n := by
  simp [windowsList]

lemma length_of_mem_windowsList {α : Type} {n : Nat} {l : List α} (hn : n ≤ l.length)
    {p : List α} (hp : p ∈ windowsList n l) : p.length = n := by
  unfold windowsList at hp
  obtain ⟨i, hi, rfl⟩ := List.mem_map.mp hp
  rw [List.mem_range] at hi
  simp only [List.length_take, List.length_drop]
  omega

/-- Claim C8: for a sequence of length `L ≥ 2 * W` (and a meaningful width
`0 < W`, the Rust iterator panics on `step_by(0)`), `partitioning_sequence`
yields exactly `(L - 2 * W) / W + 1` partitions, each of length exactly
`2 * W`; and the length-16, width-5 example yields exactly the two claimed
partitions. -/
theorem C8_thm :
    (∀ (s : List Char) (w : Nat), 0 < w → 2 * w ≤ s.length →
      (partitioning_sequence s w).length = (s.length - 2 * w) / w + 1 ∧
      ∀ p ∈ partitioning_sequence s w, p.length = 2 * w) ∧
    partitioning_sequence ['A','A','C','C','T','T','G','G','A','A','C','C','T','T','G','G'] 5 =
      [['A','A','C','C','T','T','G','G','A','A'], ['T','G','G','A','A','C','C','T','T','G']] := by
  refine ⟨?_, by decide⟩
  intro s w hw hlen
  constructor
  · unfold partitioning_sequence
    rw [stepBy_length w hw, windowsList_length]
    have h1 : s.length + 1 - w * 2 + w - 1 = (s.length - 2 * w) + w := by omega
    rw [h1, Nat.add_div_right _ hw]
  · intro p hp
    have hp' := mem_of_mem_stepBy hp
    have hle : w * 2 ≤ s.length := by omega
    have := length_of_mem_windowsList hle hp'
    omega

theorem C8_witness :
    (partitioning_sequence (List.replicate 14 'A') 4).length =
      ((List.replicate 14 'A').length - 2 * 4) / 4 + 1 :=
  (C8_thm.1 (List.replicate 14 'A') 4 (by decide) (by decide)).1

/-! ## Claim C4: the adaptive Tm acceptance -/

/-- Claim C4: for a selected candidate list whose adaptive threshold is `t`
(i.e. `t` is `mean + 2 * sd` of the candidates' Tm values, `IsTmThreshold`),
every produced stat row passes `tm_ok` exactly when its own
`Tm = 64.9 + 41 * (gc - 16.4) / (gc + at)` is strictly below `t`; a
candidate whose Tm equals `t` fails. -/
theorem C4_thm (kmer_records : List KmerFrequency) (t : ℚ)
    (ht : IsTmThreshold (kmer_records.map (fun k => k.kmer.word)) t)
    (s : KmerStat) (hs : s ∈ get_kmer_stats kmer_records t) :
    (s.tm_ok = true ↔ get_tm s.word < t) ∧ (get_tm s.word = t → s.tm_ok = false) := by
  unfold get_kmer_stats at hs
  obtain ⟨k, _, rfl⟩ := List.mem_map.mp hs
  refine ⟨?_, ?_⟩
  · simp [in_tm_threshold]
  · intro h
    simp only [in_tm_threshold, h, decide_eq_false_iff_not]
    exact lt_irrefl t

theorem C4_witness :
    IsTmThreshold (qcKmers.map (fun k => k.kmer.word)) qcT ∧
    qcStatG ∈ qcStats ∧
    ((qcStatG.tm_ok = true ↔ get_tm qcStatG.word < qcT) ∧
      (get_tm qcStatG.word = qcT → qcStatG.tm_ok = false)) := by
  refine ⟨?_, by decide, C4_thm qcKmers qcT ?_ qcStatG (by decide)⟩ <;>
    constructor <;> decide

/-! ## Claim C5: the final acceptance filter -/

/-- Claim C5, amended: a stat row is kept by the final filter exactly when
`tm_ok` holds, the repeat and run flags are false, and its `f32`-computed
GC percentage lies in `[40, 60]` (the hairpin flag does not participate).
On the `f32` values actually computed, a candidate whose exact G/C ratio is
2/5 gets percentage exactly 40 and passes the bound, but one whose exact
ratio is 3/5 gets percentage `15728641 / 262144`, strictly above 60, and is
rejected. -/
theorem C5_amended :
    (∀ (kmer_stats : List KmerStat) (s : KmerStat),
      s ∈ filter_candidate_primers kmer_stats ↔
        s ∈ kmer_stats ∧ s.tm_ok = true ∧ s.repeats = false ∧ s.runs = false ∧
          (40 : ℚ) ≤ s.gc_percent ∧ s.gc_percent ≤ 60) ∧
    get_gc_percent ['G','G','A','A','A'] = 40 ∧
    get_gc_percent ['G','G','G','A','A'] = 15728641 / 262144 ∧
    (60 : ℚ) < get_gc_percent ['G','G','G','A','A'] := by
  refine ⟨?_, by decide, by decide, by decide⟩
  intro kmer_stats s
  rw [filter_candidate_primers, List.mem_filter]
  simp [Bool.and_eq_true, decide_eq_true_eq, Bool.not_eq_true', and_assoc]

/-- Claim C5, counterexample: the 60-percent-GC candidate (3 G/C in a word of
length 5) satisfies every claimed acceptance condition — `tm_ok` true, no
dinucleotide repeat, no homopolymer run, GC percentage exactly 60 — yet the
final accepted list is empty: its `f32` GC percentage evaluates to slightly
more than 60 and the `<= 60.0` test rejects it. -/
theorem C5_counterexample :
    IsTmThreshold (qcKmers.map (fun k => k.kmer.word)) qcT ∧
    qcStatG ∈ qcStats ∧
    qcStatG.word = ['G','G','G','A','A'] ∧
    gcCount qcStatG.word = 3 ∧
    qcStatG.word.length = 5 ∧
    qcStatG.tm_ok = true ∧
    qcStatG.repeats = false ∧
    qcStatG.runs = false ∧
    filter_candidate_primers qcStats = [] := by
  refine ⟨⟨by decide, by decide⟩, ?_⟩
  decide

/-! ## Claim C1: ordering of append and stop check in the greedy loop -/

/-- Claim C1, counterexample: with one segment, one candidate and mismatch
tolerance 1, the first round finds a winner whose covering set is the whole
segment set; the stop condition `total - skipped < tolerance` therefore
first becomes true in that round, and the returned accepted list is empty —
the round's winner is absent, because the source tests the stop condition
before pushing the winner (main.rs lines 516-520). -/
theorem C1_counterexample :
    find_most_freq_kmer c1Segs (make_kmer_segments_mapping c1Segs) [] =
      FindResult.found (KmerFrequency.mk (KmerRecord.mk ['A','A','A'] SEQ_DIR_FWD) 1) [0] ∧
    c1Segs.length - [0].length < 1 ∧
    get_candidates_kmers 100 1 c1Segs = some [] := by
  decide

/-- Claim C1, amended: in every round of the greedy loop the stop condition
(`total_segments` minus the size of the skipped set being below the mismatch
tolerance) is tested before the round's winner is appended; consequently,
when the stop condition first becomes true in a round, the loop returns the
accumulated list without that round's winner, and when it does not hold (in
particular always under the default tolerance `MAX_MISMATCH_SEGMENTS = 0`)
the winner is appended and the loop continues. -/
theorem C1_amended (maxMismatch : Nat) (segments : List (Nat × Segment))
    (ksm : List (List Char × List (Nat × Nat))) (total fuel : Nat)
    (skipped : List Nat) (acc : List KmerFrequency) (w : KmerFrequency) (ns : List Nat)
    (hfind : find_most_freq_kmer segments ksm skipped = FindResult.found w ns) :
    (total - (ns.foldl setInsert skipped).length < maxMismatch →
      gckLoop maxMismatch segments ksm total (fuel + 1) skipped acc = some acc) ∧
    (¬ total - (ns.foldl setInsert skipped).length < maxMismatch →
      gckLoop maxMismatch segments ksm total (fuel + 1) skipped acc =
        gckLoop maxMismatch segments ksm total fuel (ns.foldl setInsert skipped) (acc ++ [w])) ∧
    (maxMismatch = 0 →
      gckLoop maxMismatch segments ksm total (fuel + 1) skipped acc =
        gckLoop maxMismatch segments ksm total fuel (ns.foldl setInsert skipped) (acc ++ [w])) := by
  refine ⟨?_, ?_, ?_⟩
  · intro hstop
    rw [gckLoop, hfind]
    simp only [hstop, if_true]
  · intro hstop
    rw [gckLoop, hfind]
    simp only [hstop, if_false]
  · intro h0
    subst h0
    rw [gckLoop, hfind]
    simp only [Nat.not_lt_zero, if_false]

theorem C1_amended_witness :
    gckLoop 1 c1Segs (make_kmer_segments_mapping c1Segs) c1Segs.length 100 [] [] = some [] :=
  (C1_amended 1 c1Segs (make_kmer_segments_mapping c1Segs) c1Segs.length 99 [] []
    (KmerFrequency.mk (KmerRecord.mk ['A','A','A'] SEQ_DIR_FWD) 1) [0]
    (by decide)).1 (by decide)

/-! ## Claim C7: segment counts are per-sequence tallies -/

lemma alookup_nil [DecidableEq κ] (key : κ) : alookup (δ := δ) key [] = none := rfl

lemma alookup_cons [DecidableEq κ] (key k : κ) (v : δ) (rest : List (κ × δ)) :
    alookup key ((k, v) :: rest) = if k = key then some v else alookup key rest := rfl

lemma alistAdd_nil [DecidableEq κ] (key : κ) (n : Nat) :
    alistAdd ([] : List (κ × Nat)) key n = [(key, n)] := rfl

lemma alistAdd_cons [DecidableEq κ] (k key : κ) (v n : Nat) (rest : List (κ × Nat)) :
    alistAdd ((k, v) :: rest) key n =
      if k = key then (k, v + n) :: rest else (k, v) :: alistAdd rest key n := rfl

lemma segUpdate_nil (idx : Nat) (f : Segment → Segment) :
    segUpdate [] idx f = [(idx, f (Segment.mk (idx % 2 ^ 16) []))] := rfl

lemma segUpdate_cons (i : Nat) (s : Segment) (rest : List (Nat × Segment)) (idx : Nat)
    (f : Segment → Segment) :
    segUpdate ((i, s) :: rest) idx f =
      if i = idx then (i, f s) :: rest else (i, s) :: segUpdate rest idx f := rfl

lemma segMapAt_nil (idx : Nat) : segMapAt [] idx = [] := rfl

lemma segMapAt_cons (i : Nat) (s : Segment) (rest : List (Nat × Segment)) (idx : Nat) :
    segMapAt ((i, s) :: rest) idx = if i = idx then s.kmers else segMapAt rest idx := by
  rw [segMapAt, alookup_cons]
  by_cases h : i = idx
  · rw [if_pos h, if_pos h]
  · rw [if_neg h, if_neg h, segMapAt]

lemma alookup_alistAdd_self [DecidableEq κ] (m : List (κ × Nat)) (key : κ) (n : Nat) :
    alookup key (alistAdd m key n) = some (countOf m key + n) := by
  induction m with
  | nil => simp [alistAdd_nil, alookup_cons, alookup_nil, countOf]
  | cons kv rest ih =>
    obtain ⟨k, v⟩ := kv
    by_cases h : k = key
    · subst h
      simp [alistAdd_cons, alookup_cons, countOf]
    · rw [alistAdd_cons, if_neg h, alookup_cons, if_neg h, ih]
      simp [countOf, alookup_cons, h]

lemma alookup_alistAdd_ne [DecidableEq κ] (m : List (κ × Nat)) (key k' : κ) (n : Nat)
    (h : k' ≠ key) : alookup k' (alistAdd m key n) = alookup k' m := by
  have h' : key ≠ k' := Ne.symm h
  induction m with
  | nil => simp [alistAdd_nil, alookup_cons, alookup_nil, h']
  | cons kv rest ih =>
    obtain ⟨k, v⟩ := kv
    by_cases hk : k = key
    · subst hk
      simp [alistAdd_cons, alookup_cons, h']
    · rw [alistAdd_cons, if_neg hk, alookup_cons, alookup_cons]
      by_cases hk' : k = k'
      · rw [if_pos hk', if_pos hk']
      · rw [if_neg hk', if_neg hk', ih]

lemma countOf_alistAdd_self [DecidableEq κ] (m : List (κ × Nat)) (key : κ) (n : Nat) :
    countOf (alistAdd m key n) key = countOf m key + n := by
  rw [countOf, alookup_alistAdd_self]
  rfl

lemma countOf_alistAdd_ne [DecidableEq κ] (m : List (κ × Nat)) (key k' : κ) (n : Nat)
    (h : k' ≠ key) : countOf (alistAdd m key n) k' = countOf m k' := by
  rw [countOf, alookup_alistAdd_ne m key k' n h, countOf]

lemma countOf_foldl_alistAdd_one [DecidableEq κ] (l : List κ) :
    ∀ (m : List (κ × Nat)) (key : κ), l.Nodup →
    countOf (l.foldl (fun m k => alistAdd m k 1) m) key =
      countOf m key + (if key ∈ l then 1 else 0) := by
  induction l with
  | nil => intro m key _; simp
  | cons a l ih =>
    intro m key hnd
    obtain ⟨ha, hnd'⟩ := List.nodup_cons.mp hnd
    rw [List.foldl_cons, ih (alistAdd m a 1) key hnd']
    by_cases hk : key = a
    · subst hk
      rw [countOf_alistAdd_self, if_neg ha, if_pos (List.mem_cons_self _ _)]
    · rw [countOf_alistAdd_ne m a key 1 hk]
      by_cases hl : key ∈ l
      · rw [if_pos hl, if_pos (List.mem_cons_of_mem _ hl)]
      · rw [if_neg hl, if_neg (by simp [hk, hl])]

lemma uniqueAux_nodup_and_disjoint [DecidableEq α] :
    ∀ (l seen : List α), (uniqueAux seen l).Nodup ∧ ∀ x ∈ uniqueAux seen l, x ∉ seen := by
  intro l
  induction l with
  | nil => intro seen; simp [uniqueAux]
  | cons a t ih =>
    intro seen
    by_cases ha : a ∈ seen
    · rw [uniqueAux, if_pos ha]
      exact ih seen
    · rw [uniqueAux, if_neg ha]
      obtain ⟨hnd, hdisj⟩ := ih (a :: seen)
      refine ⟨List.nodup_cons.mpr ⟨?_, hnd⟩, ?_⟩
      · intro hmem
        exact hdisj a hmem (List.mem_cons_self _ _)
      · intro x hx
        rcases List.mem_cons.mp hx with rfl | hx
        · exact ha
        · exact fun hs => hdisj x hx (List.mem_cons_of_mem _ hs)

lemma uniqueList_nodup [DecidableEq α] (l : List α) : (uniqueList l).Nodup :=
  (uniqueAux_nodup_and_disjoint l []).1

lemma find_kmers_nodup (s : List Char) (k : Nat) : (find_kmers s k).Nodup :=
  uniqueList_nodup _

lemma partitionKmers_nodup (p : List Char) (k sw : Nat) : (partitionKmers p k sw).Nodup := by
  unfold partitionKmers
  refine List.Nodup.append ?_ ?_ ?_
  · exact (find_kmers_nodup _ _).map (fun w w' h => by
      simpa [KmerRecord.mk.injEq] using h)
  · exact (find_kmers_nodup _ _).map (fun w w' h => by
      simpa [KmerRecord.mk.injEq] using h)
  · rw [List.disjoint_left]
    intro kr h1 h2
    obtain ⟨w1, _, rfl⟩ := List.mem_map.mp h1
    obtain ⟨w2, _, he⟩ := List.mem_map.mp h2
    have : SEQ_DIR_REV = SEQ_DIR_FWD := congrArg KmerRecord.direction he
    simp [SEQ_DIR_FWD, SEQ_DIR_REV] at this

lemma segMapAt_segUpdate_self (segs : List (Nat × Segment)) (idx : Nat) (f : Segment → Segment) :
    segMapAt (segUpdate segs idx f) idx =
      (f ((alookup idx segs).getD (Segment.mk (idx % 2 ^ 16) []))).kmers := by
  induction segs with
  | nil => simp [segUpdate_nil, segMapAt_cons, alookup_nil]
  | cons is rest ih =>
    obtain ⟨i, s⟩ := is
    by_cases h : i = idx
    · subst h
      simp [segUpdate_cons, segMapAt_cons, alookup_cons]
    · rw [segUpdate_cons, if_neg h, segMapAt_cons, if_neg h, ih, alookup_cons, if_neg h]

lemma segMapAt_segUpdate_ne (segs : List (Nat × Segment)) (idx j : Nat) (f : Segment → Segment)
    (h : j ≠ idx) : segMapAt (segUpdate segs idx f) j = segMapAt segs j := by
  have h' : idx ≠ j := Ne.symm h
  induction segs with
  | nil => simp [segUpdate_nil, segMapAt_cons, segMapAt_nil, h']
  | cons is rest ih =>
    obtain ⟨i, s⟩ := is
    by_cases hk : i = idx
    · subst hk
      rw [segUpdate_cons, if_pos rfl, segMapAt_cons, segMapAt_cons, if_neg h', if_neg h']
    · rw [segUpdate_cons, if_neg hk, segMapAt_cons, segMapAt_cons]
      by_cases hj : i = j
      · rw [if_pos hj, if_pos hj]
      · rw [if_neg hj, if_neg hj, ih]

lemma getD_kmers_eq_segMapAt (segs : List (Nat × Segment)) (idx : Nat) :
    ((alookup idx segs).getD (Segment.mk (idx % 2 ^ 16) [])).kmers = segMapAt segs idx := by
  rw [segMapAt]
  cases alookup idx segs <;> rfl

lemma segCnt_processPartition (k sw : Nat) (segs : List (Nat × Segment)) (j : Nat)
    (p : List Char) (idx : Nat) (kr : KmerRecord) :
    segCnt (processPartition k sw segs (j, p)) idx kr =
      segCnt segs idx kr + (if idx = j ∧ kr ∈ partitionKmers p k sw then 1 else 0) := by
  by_cases hj : idx = j
  · subst hj
    rw [segCnt, processPartition, segMapAt_segUpdate_self]
    simp only [getD_kmers_eq_segMapAt]
    rw [countOf_foldl_alistAdd_one (partitionKmers p k sw) _ kr (partitionKmers_nodup p k sw),
      segCnt]
    by_cases hm : kr ∈ partitionKmers p k sw
    · simp [hm]
    · simp [hm]
  · rw [segCnt, processPartition, segMapAt_segUpdate_ne _ _ _ _ hj, ← segCnt,
      if_neg (fun hc => hj hc.1)]
    omega

lemma segCnt_foldl_enumFrom (k sw : Nat) (idx : Nat) (kr : KmerRecord) :
    ∀ (parts : List (List Char)) (n : Nat) (segs : List (Nat × Segment)),
    segCnt ((List.enumFrom n parts).foldl (processPartition k sw) segs) idx kr =
      segCnt segs idx kr +
        (if n ≤ idx then
          (match parts.get? (idx - n) with
           | some p => if kr ∈ partitionKmers p k sw then 1 else 0
           | none => 0)
         else 0) := by
  intro parts
  induction parts with
  | nil =>
    intro n segs
    simp [List.enumFrom]
  | cons p ps ih =>
    intro n segs
    rw [List.enumFrom, List.foldl_cons, ih (n + 1), segCnt_processPartition]
    rcases Nat.lt_trichotomy idx n with hlt | heq | hgt
    · have h1 : ¬ n + 1 ≤ idx := by omega
      have h2 : ¬ n ≤ idx := by omega
      have h3 : idx ≠ n := by omega
      rw [if_neg h1, if_neg h2, if_neg (fun hc => h3 hc.1)]
    · subst heq
      have h1 : ¬ idx + 1 ≤ idx := by omega
      rw [if_neg h1, if_pos (le_refl idx), Nat.sub_self]
      by_cases hm : kr ∈ partitionKmers p k sw
      · simp [hm]
      · simp [hm]
    · have h1 : n + 1 ≤ idx := hgt
      have h2 : n ≤ idx := by omega
      have h3 : idx ≠ n := by omega
      rw [if_pos h1, if_pos h2, if_neg (fun hc => h3 hc.1)]
      have h4 : idx - n = (idx - (n + 1)) + 1 := by omega
      rw [h4, List.get?_cons_succ]
      omega

lemma segCnt_get_segments_fold (ovlp k sw : Nat) (idx : Nat) (kr : KmerRecord) :
    ∀ (records : List SequenceRecord) (segs : List (Nat × Segment)),
    segCnt (records.foldl (fun segs rec =>
        (partitioning_sequence rec.sequence ovlp).enum.foldl (processPartition k sw) segs) segs)
        idx kr =
      segCnt segs idx kr +
        records.countP (fun r => decide (kr ∈ partitionKmersAt r.sequence ovlp k sw idx)) := by
  intro records
  induction records with
  | nil => intro segs; simp
  | cons r rs ih =>
    intro segs
    rw [List.foldl_cons, ih, List.countP_cons]
    have henum : (partitioning_sequence r.sequence ovlp).enum =
        List.enumFrom 0 (partitioning_sequence r.sequence ovlp) := rfl
    rw [henum, segCnt_foldl_enumFrom k sw idx kr _ 0 segs, if_pos (Nat.zero_le idx),
      Nat.sub_zero]
    have hmatch : (match (partitioning_sequence r.sequence ovlp).get? idx with
        | some p => if kr ∈ partitionKmers p k sw then 1 else 0
        | none => 0) =
        (if decide (kr ∈ partitionKmersAt r.sequence ovlp k sw idx) = true then 1 else 0) := by
      cases hg : (partitioning_sequence r.sequence ovlp).get? idx with
      | none =>
        rw [List.get?_eq_getElem?] at hg
        simp [partitionKmersAt, hg]
      | some q =>
        rw [List.get?_eq_getElem?] at hg
        by_cases hm : kr ∈ partitionKmers q k sw
        · simp [partitionKmersAt, hg, hm]
        · simp [partitionKmersAt, hg, hm]
    rw [hmatch]
    omega

/-- Claim C7: after `get_segments`, every entry of every segment's count map
stores exactly the number of input sequences whose search windows at that
partition index exhibit that (word, strand) — not the raw occurrence count —
because each sequence's window k-mers are deduplicated before counting. -/
theorem C7_thm (records : List SequenceRecord) (ovlp k sw : Nat)
    (segs : List (Nat × Segment)) (idx : Nat) (seg : Segment) (kr : KmerRecord) (cnt : Nat)
    (hsegs : get_segments records ovlp k sw = some segs)
    (hseg : alookup idx segs = some seg)
    (hcnt : alookup kr seg.kmers = some cnt) :
    cnt = (records.filter
      (fun r => decide (kr ∈ partitionKmersAt r.sequence ovlp k sw idx))).length := by
  rw [get_segments] at hsegs
  by_cases hc : ovlp < sw
  · rw [if_pos hc] at hsegs
    exact absurd hsegs (by simp)
  · rw [if_neg hc] at hsegs
    injection hsegs with hsegs
    have h := segCnt_get_segments_fold ovlp k sw idx kr records []
    rw [hsegs] at h
    have h0 : segCnt ([] : List (Nat × Segment)) idx kr = 0 := rfl
    rw [h0, Nat.zero_add] at h
    have h1 : segCnt segs idx kr = cnt := by
      rw [segCnt, segMapAt, hseg, countOf, hcnt]
      rfl
    rw [← List.countP_eq_length_filter, ← h]
    exact h1.symm

theorem C7_witness :
    get_segments c7Records 5 3 5 = some c7Segs ∧
    alookup 0 c7Segs = some c7Seg0 ∧
    alookup (KmerRecord.mk ['A','A','C'] SEQ_DIR_FWD) c7Seg0.kmers = some 2 ∧
    2 = (c7Records.filter (fun r =>
      decide ((KmerRecord.mk ['A','A','C'] SEQ_DIR_FWD) ∈
        partitionKmersAt r.sequence 5 3 5 0))).length := by
  have h1 : get_segments c7Records 5 3 5 = some c7Segs := by decide
  have h2 : alookup 0 c7Segs = some c7Seg0 := by decide
  have h3 : alookup (KmerRecord.mk ['A','A','C'] SEQ_DIR_FWD) c7Seg0.kmers = some 2 := by decide
  exact ⟨h1, h2, h3, C7_thm c7Records 5 3 5 c7Segs 0 c7Seg0 _ 2 h1 h2 h3⟩
